import Mathlib

/-!
Verification development for the batched CLIP encode/rank pipeline of the
`CLIPEncoder` executor (`server/clip_server/executors/clip_hg.py`).

The embedding follows the source: documents are records of the docarray
content fields (`text`, `blob`, `tensor`, `uri`) plus `embedding` and the two
rank scores; the model backend (feature extractor, tokenizer, CLIP forward
passes, URI/blob image loading) is an opaque record of functions, exactly as
the spec treats `embed` as an opaque function.  Mutation of caller-owned
documents through references is modelled by store passing: a document
collection is a list, the modality buckets are lists of indices into it, and
every in-place write of the Python code becomes an index-targeted update of
the list.
-/

namespace ClipHG

abbrev Tensor := List Int
abbrev Blob := List Nat
abbrev Emb := List ℚ

/-- Content of a document, as docarray exposes it: at most one of the
`text` / `blob` / `tensor` fields is populated. -/
inductive Content where
  | ctext (s : String)
  | cblob (b : Blob)
  | ctensor (t : Tensor)
  | cnone
deriving DecidableEq

/-- Document record: the docarray fields touched by the executor. -/
structure Doc where
  id : String := ""
  text : Option String := none
  blob : Option Blob := none
  tensor : Option Tensor := none
  uri : Option String := none
  embedding : Option Emb := none
  clip_score : Option ℚ := none
  clip_score_cosine : Option ℚ := none
deriving DecidableEq

instance : Inhabited Doc := ⟨{}⟩

/-- Top-level document together with its one level of matches, for rank. -/
structure RootDoc where
  root : Doc
  matches' : List Doc
deriving DecidableEq

instance : Inhabited RootDoc := ⟨⟨default, []⟩⟩

/-- Projection of the populated content field, mirroring docarray's
`Document.content` getter (empty text and empty blob count as unset). -/
def Doc.content (d : Doc) : Content :=
  if d.text.getD "" ≠ "" then .ctext (d.text.getD "")
  else if d.blob.getD [] ≠ [] then .cblob (d.blob.getD [])
  else
    match d.tensor with
    | some t => .ctensor t
    | none => .cnone

def Content.textF : Content → Option String
  | .ctext s => some s
  | _ => none

def Content.blobF : Content → Option Blob
  | .cblob b => some b
  | _ => none

def Content.tensorF : Content → Option Tensor
  | .ctensor t => some t
  | _ => none

/-- Assignment `d.content = c`, mirroring docarray's content setter: the
three content fields are mutually exclusive, so the other two are cleared. -/
def Doc.withContent (d : Doc) (c : Content) : Doc :=
  { d with text := c.textF, blob := c.blobF, tensor := c.tensorF }

/-- Assignment `d.tensor = v` (content exclusivity clears text and blob). -/
def setTensorField (d : Doc) (v : Tensor) : Doc :=
  { d with tensor := some v, text := none, blob := none }

/-- Assignment `d.embedding = e`. -/
def setEmbedding (d : Doc) (e : Emb) : Doc :=
  { d with embedding := some e }

/-- Opaque model backend: feature extractor, tokenizer, the two CLIP forward
passes, and the blob/URI image loaders.  All operate on whole minibatches,
as the source invokes them. -/
structure Backend where
  pixelValues : List Tensor → List Tensor
  castPixel : List Tensor → List Tensor
  tokenizeIds : List String → List Tensor
  imageFeatures : List Tensor → List Emb
  textFeatures : List Tensor → List Emb
  blobToTensor : Blob → Tensor
  uriToTensor : String → Tensor

/-- Constructor configuration of the executor (the fields used by encode). -/
structure Config where
  use_default_preprocessing : Bool := true
  overwrite_embeddings : Bool := false
  traversal_paths : String := "@r"
  minibatch_size : Nat := 32

/-- Request parameters accepted by encode. -/
structure Params where
  traversal_paths : Option String := none
  batch_size : Option Nat := none
  overwrite_embeddings : Option Bool := none

/-- Modality bucket assignment. -/
inductive Modality where
  | mtext
  | mimage
  | mnone
deriving DecidableEq

/-- Modelled from the spec: `split_img_txt_da` lives in
`clip_server/executors/helper.py`, which is not part of the sources here.
Spec 4.1: text bucket iff the content is a non-empty text string; image
bucket iff the content is an image tensor, byte-blob, or URI; otherwise no
usable content and the document is left untouched. -/
def classify (d : Doc) : Modality :=
  if d.text.getD "" ≠ "" then .mtext
  else if d.blob.getD [] ≠ [] ∨ d.tensor.isSome ∨ d.uri.getD "" ≠ "" then .mimage
  else .mnone

/-- Raw image tensor selected by `_preproc_images` (clip_hg.py lines
132-142): `if d.blob:` converts the blob, `elif d.tensor is not None:` takes
the tensor, `else:` loads the URI. -/
def rawImageTensor (B : Backend) (d : Doc) : Tensor :=
  if d.blob.getD [] ≠ [] then B.blobToTensor (d.blob.getD [])
  else
    match d.tensor with
    | some t => t
    | none => B.uriToTensor (d.uri.getD "")

/-- Update the document at one index of the store (an in-place mutation of
the referenced document). -/
def updIdx (f : Doc → Doc) : List Doc → Nat → List Doc
  | [], _ => []
  | d :: ds, 0 => f d :: ds
  | d :: ds, n + 1 => d :: updIdx f ds n

/-- Read the document at an index of the store. -/
def getDoc (store : List Doc) (i : Nat) : Doc :=
  store.getD i default

/-- Sequence of per-index writes: one batched assignment such as
`docs.tensors = ...` or the zip-and-restore loop. -/
def parWrite (f : Doc → α → Doc) (store : List Doc) (ps : List (Nat × α)) :
    List Doc :=
  ps.foldl (fun s p => updIdx (fun d => f d p.2) s p.1) store

def chunksAux (b : Nat) : Nat → List Nat → List (List Nat)
  | 0, _ => []
  | fuel + 1, l =>
    match l with
    | [] => []
    | x :: xs => (x :: xs).take b :: chunksAux b fuel ((x :: xs).drop b)

/-- Split a bucket (list of store indices) into successive minibatches of
size `b`, as `DocumentArray.map_batch` does. -/
def chunks (b : Nat) (l : List Nat) : List (List Nat) :=
  chunksAux b l.length l

/-- Indices of the image-bucket documents, in input order. -/
def imageIdxs (docs : List Doc) : List Nat :=
  (List.range docs.length).filter fun i => classify (getDoc docs i) = .mimage

/-- Indices of the text-bucket documents, in input order. -/
def textIdxs (docs : List Doc) : List Nat :=
  (List.range docs.length).filter fun i => classify (getDoc docs i) = .mtext

/-- One image minibatch: `_preproc_images` (save contents, derive raw
tensors, write preprocessed pixel values into `docs.tensors`), then
`_encode_images` (write `docs.embeddings` from `docs.tensors`), then the
restore loop `_d.content = _ct`. -/
def processImgChunk (B : Backend) (C : Config) (store : List Doc)
    (idxs : List Nat) : List Doc :=
  let contents := idxs.map fun i => (getDoc store i).content
  let raws := idxs.map fun i => rawImageTensor B (getDoc store i)
  let pixels :=
    if C.use_default_preprocessing then B.pixelValues raws else B.castPixel raws
  let store1 := parWrite setTensorField store (idxs.zip pixels)
  let embs := B.imageFeatures (idxs.map fun i => (getDoc store1 i).tensor.getD [])
  let store2 := parWrite setEmbedding store1 (idxs.zip embs)
  parWrite Doc.withContent store2 (idxs.zip contents)

/-- One text minibatch: `_preproc_texts` (save contents, tokenize
`docs.texts` into `docs.tensors`), then `_encode_texts`, then the restore
loop. -/
def processTxtChunk (B : Backend) (_C : Config) (store : List Doc)
    (idxs : List Nat) : List Doc :=
  let contents := idxs.map fun i => (getDoc store i).content
  let ids := B.tokenizeIds (idxs.map fun i => (getDoc store i).text.getD "")
  let store1 := parWrite setTensorField store (idxs.zip ids)
  let embs := B.textFeatures (idxs.map fun i => (getDoc store1 i).tensor.getD [])
  let store2 := parWrite setEmbedding store1 (idxs.zip embs)
  parWrite Doc.withContent store2 (idxs.zip contents)

/-- Value of `parameters.get('batch_size', self._minibatch_size)`
(clip_hg.py line 204).  The source computes it and then never uses it. -/
def requestBatchSize (C : Config) (p : Params) : Nat :=
  p.batch_size.getD C.minibatch_size

/-- The encode endpoint (clip_hg.py lines 179-275).  The request-level
`traversal_paths`, `batch_size` and `overwrite_embeddings` are read exactly
as the source reads them; like the source, nothing downstream consumes them:
the commented-out filters are gone and `map_batch` is invoked with
`batch_size=self._minibatch_size`.  Image minibatches run first, then text
minibatches, then `docs.tensors = None` drops every top-level tensor. -/
def encode (B : Backend) (C : Config) (p : Params) (docs : List Doc) :
    List Doc :=
  let _traversal := p.traversal_paths.getD C.traversal_paths
  let _batch := requestBatchSize C p
  let _overwrite := p.overwrite_embeddings.getD C.overwrite_embeddings
  let s1 := (chunks C.minibatch_size (imageIdxs docs)).foldl
    (processImgChunk B C) docs
  let s2 := (chunks C.minibatch_size (textIdxs docs)).foldl
    (processTxtChunk B C) s1
  s2.map fun d => { d with tensor := none }

/-- Stable insertion step for sorting in non-increasing key order: the new
element is placed before the first element whose key is not larger, so an
earlier element wins ties. -/
def insertDesc (key : Doc → ℚ) (x : Doc) : List Doc → List Doc
  | [] => [x]
  | y :: ys => if key x < key y then y :: insertDesc key x ys else x :: y :: ys

/-- Stable sort in non-increasing key order (the semantics of Python's
stable `sorted(..., reverse=True)`). -/
def sortDesc (key : Doc → ℚ) : List Doc → List Doc
  | [] => []
  | x :: xs => insertDesc key x (sortDesc key xs)

/-- Sort key used on scored matches: `scores[clip_score].value`. -/
def clipKey (d : Doc) : ℚ :=
  d.clip_score.getD 0

/-- Modelled from the spec: the scoring half of `set_rank`
(`clip_server/executors/helper.py`, not among the sources here).  Spec 4.6:
for each match compute the raw cosine score, then
`clip_score = softmax(cosine_i * scale)` over all matches of the same
anchor; both are stored on the match.  The exponential `e` and the raw
cosine `raw` are opaque parameters, like the model itself. -/
def scoreMatches (e : ℚ → ℚ) (scale : ℚ) (raw : Doc → Doc → ℚ)
    (a : RootDoc) : List Doc :=
  let total := (a.matches'.map fun m => e (scale * raw a.root m)).sum
  a.matches'.map fun m =>
    { m with
      clip_score := some (e (scale * raw a.root m) / total)
      clip_score_cosine := some (raw a.root m) }

/-- Modelled from the spec: `set_rank` on one anchor — score every match,
then reorder the match list in place, descending by `clip_score`, ties
broken by original relative order. -/
def setRankOne (e : ℚ → ℚ) (scale : ℚ) (raw : Doc → Doc → ℚ)
    (a : RootDoc) : RootDoc :=
  { a with matches' := sortDesc clipKey (scoreMatches e scale raw a) }

/-- Modelled from the spec: `set_rank` over the whole collection of
anchors. -/
def setRankAll (e : ℚ → ℚ) (scale : ℚ) (raw : Doc → Doc → ℚ)
    (roots : List RootDoc) : List RootDoc :=
  roots.map (setRankOne e scale raw)

/-- Flat view `docs['@r,m']`: all root documents followed by all matches. -/
def flattenRoots (roots : List RootDoc) : List Doc :=
  roots.map RootDoc.root ++ roots.flatMap RootDoc.matches'

/-- Rebuild the root/match structure from the flat `@r,m` view after the
flat documents were mutated in place. -/
def unflattenRoots : List RootDoc → List Doc → List Doc → List RootDoc
  | [], _, _ => []
  | a :: as, rs, ms =>
    { root := rs.headD a.root, matches' := ms.take a.matches'.length }
      :: unflattenRoots as rs.tail (ms.drop a.matches'.length)

/-- Python-level failure surfaced by the executor. -/
inductive PyError where
  | typeError
deriving DecidableEq

/-- Direct invocation of the encode endpoint as a Python call.  The
signature (clip_hg.py line 180) declares `parameters: Dict[str, Any]` with
no default value, so a call that omits the argument raises `TypeError`
before the body runs. -/
def encodeCall (B : Backend) (C : Config) (params? : Option Params)
    (docs : List Doc) : Except PyError (List Doc) :=
  match params? with
  | none => .error .typeError
  | some p => .ok (encode B C p docs)

/-- The rank endpoint (clip_hg.py lines 173-177): it awaits
`self.encode(docs['@r,m'])` — passing no `parameters` argument — and then
calls `set_rank(docs)`. -/
def rank (B : Backend) (C : Config) (e : ℚ → ℚ) (scale : ℚ)
    (raw : Doc → Doc → ℚ) (roots : List RootDoc) :
    Except PyError (List RootDoc) :=
  match encodeCall B C none (flattenRoots roots) with
  | .error err => .error err
  | .ok flat =>
    .ok (setRankAll e scale raw
      (unflattenRoots roots (flat.take roots.length) (flat.drop roots.length)))

/-- Inputs of the one-time thread/device tuning step in `__init__`
(clip_hg.py lines 86-103): the resolved device string, whether
`OMP_NUM_THREADS` is present in the environment, the replica count when
`self.runtime_args` carries one, and `torch.get_num_threads()`. -/
structure TunerInput where
  device : String
  ompPresent : Bool
  replicas? : Option Nat
  totalThreads : Nat
deriving DecidableEq

/-- Effect of the tuning step on the numeric backend: whether a performance
warning was emitted, and the intra-op/inter-op thread counts, `none`
meaning left unmodified. -/
structure ThreadState where
  warned : Bool
  intraOp : Option Nat
  interOp : Option Nat
deriving DecidableEq

/-- Thread/device tuning from `__init__` (clip_hg.py lines 86-103): on a
non-cuda device, with `OMP_NUM_THREADS` absent and a known replica count,
compute `num_threads = max(1, torch.get_num_threads() // replicas)`; when
`num_threads < 2`, warn and set `num_threads` intra-op threads and 1
inter-op thread; in every other case touch nothing. -/
def tuneThreads (inp : TunerInput) : ThreadState :=
  if ¬ inp.device.startsWith "cuda" ∧ (¬ inp.ompPresent ∧ inp.replicas?.isSome)
  then
    let replicas := inp.replicas?.getD 1
    let numThreads := max 1 (inp.totalThreads / replicas)
    if numThreads < 2 then
      { warned := true, intraOp := some (max numThreads 1), interOp := some 1 }
    else { warned := false, intraOp := none, interOp := none }
  else { warned := false, intraOp := none, interOp := none }

/-- Thread counts as the claimed behaviour computes them. -/
def perReplicaThreads (inp : TunerInput) : Nat :=
  max 1 (inp.totalThreads / inp.replicas?.getD 1)

/-- Concrete backend used to evaluate the pipeline on concrete inputs.  The
text encoder deliberately depends on the minibatch length, so the minibatch
split is observable in the produced embeddings. -/
def Bex : Backend where
  pixelValues := fun l => l.map fun t => t.map (· + 1)
  castPixel := fun l => l
  tokenizeIds := fun ss => ss.map fun s => [Int.ofNat s.length]
  imageFeatures := fun ts => ts.map fun t => [(t.length : ℚ)]
  textFeatures := fun ts => ts.map fun _ => [(ts.length : ℚ)]
  blobToTensor := fun b => b.map Int.ofNat ++ [99]
  uriToTensor := fun _ => [7]

theorem getDoc_cons_zero (d : Doc) (ds : List Doc) : getDoc (d :: ds) 0 = d := by
  simp [getDoc]

theorem getDoc_cons_succ (d : Doc) (ds : List Doc) (i : Nat) :
    getDoc (d :: ds) (i + 1) = getDoc ds i := by
  simp [getDoc]

theorem getDoc_map (f : Doc → Doc) :
    ∀ (l : List Doc) (i : Nat), i < l.length →
      getDoc (l.map f) i = f (getDoc l i) := by
  intro l
  induction l with
  | nil => intro i hi; simp at hi
  | cons d ds ih =>
    intro i hi
    cases i with
    | zero => simp [getDoc]
    | succ j =>
      simp only [List.map_cons, getDoc_cons_succ]
      exact ih j (by simpa using hi)

theorem getDoc_map_proj {β : Type} (g : Doc → β) :
    ∀ (l l' : List Doc) (i : Nat), l'.map g = l.map g →
      g (getDoc l' i) = g (getDoc l i) := by
  intro l
  induction l with
  | nil =>
    intro l' i h
    simp only [List.map_nil, List.map_eq_nil_iff] at h
    subst h; rfl
  | cons d ds ih =>
    intro l' i h
    cases l' with
    | nil => simp at h
    | cons d' ds' =>
      simp only [List.map_cons, List.cons.injEq] at h
      cases i with
      | zero => simpa [getDoc] using h.1
      | succ j =>
        simp only [getDoc_cons_succ]
        exact ih ds' j h.2

theorem updIdx_length (f : Doc → Doc) :
    ∀ (l : List Doc) (n : Nat), (updIdx f l n).length = l.length := by
  intro l
  induction l with
  | nil => intro n; rfl
  | cons d ds ih =>
    intro n
    cases n with
    | zero => rfl
    | succ m => simpa [updIdx] using ih m

theorem updIdx_map_proj {β : Type} (g : Doc → β) (f : Doc → Doc)
    (hf : ∀ d, g (f d) = g d) :
    ∀ (l : List Doc) (n : Nat), (updIdx f l n).map g = l.map g := by
  intro l
  induction l with
  | nil => intro n; rfl
  | cons d ds ih =>
    intro n
    cases n with
    | zero => simp [updIdx, hf]
    | succ m => simp [updIdx, ih m]

theorem getDoc_updIdx_ne (f : Doc → Doc) :
    ∀ (l : List Doc) {i n : Nat}, i ≠ n →
      getDoc (updIdx f l n) i = getDoc l i := by
  intro l
  induction l with
  | nil => intro i n _; rfl
  | cons d ds ih =>
    intro i n hne
    cases n with
    | zero =>
      cases i with
      | zero => exact absurd rfl hne
      | succ j => simp [updIdx, getDoc_cons_succ]
    | succ m =>
      cases i with
      | zero => simp [updIdx, getDoc_cons_zero]
      | succ j =>
        simp only [updIdx, getDoc_cons_succ]
        exact ih (fun h => hne (by simp [h]))

theorem getDoc_updIdx_eq (f : Doc → Doc) :
    ∀ (l : List Doc) {n : Nat}, n < l.length →
      getDoc (updIdx f l n) n = f (getDoc l n) := by
  intro l
  induction l with
  | nil => intro n hn; simp at hn
  | cons d ds ih =>
    intro n hn
    cases n with
    | zero => simp [updIdx, getDoc_cons_zero]
    | succ m =>
      simp only [updIdx, getDoc_cons_succ]
      exact ih (by simpa using hn)

theorem parWrite_length {α : Type} (f : Doc → α → Doc) :
    ∀ (ps : List (Nat × α)) (s : List Doc),
      (parWrite f s ps).length = s.length := by
  intro ps
  induction ps with
  | nil => intro s; rfl
  | cons p ps ih =>
    intro s
    simpa [parWrite, List.foldl_cons] using
      (ih (updIdx (fun d => f d p.2) s p.1)).trans (updIdx_length _ s p.1)

theorem parWrite_map_proj {α β : Type} (g : Doc → β) (f : Doc → α → Doc)
    (hf : ∀ d a, g (f d a) = g d) :
    ∀ (ps : List (Nat × α)) (s : List Doc),
      (parWrite f s ps).map g = s.map g := by
  intro ps
  induction ps with
  | nil => intro s; rfl
  | cons p ps ih =>
    intro s
    calc (parWrite f (updIdx (fun d => f d p.2) s p.1) ps).map g
        = (updIdx (fun d => f d p.2) s p.1).map g := ih _
      _ = s.map g := updIdx_map_proj g _ (fun d => hf d p.2) s p.1

theorem parWrite_get_not_mem {α : Type} (f : Doc → α → Doc) {i : Nat} :
    ∀ (ps : List (Nat × α)) (s : List Doc), i ∉ ps.map Prod.fst →
      getDoc (parWrite f s ps) i = getDoc s i := by
  intro ps
  induction ps with
  | nil => intro s _; rfl
  | cons p ps ih =>
    intro s hnm
    simp only [List.map_cons, List.mem_cons, not_or] at hnm
    calc getDoc (parWrite f (updIdx (fun d => f d p.2) s p.1) ps) i
        = getDoc (updIdx (fun d => f d p.2) s p.1) i := ih _ hnm.2
      _ = getDoc s i := getDoc_updIdx_ne _ s hnm.1

theorem not_mem_zip_fst {α : Type} {i : Nat} {idxs : List Nat}
    (vals : List α) (h : i ∉ idxs) : i ∉ (idxs.zip vals).map Prod.fst := by
  intro hmem
  rcases List.mem_map.mp hmem with ⟨p, hp, rfl⟩
  exact h (List.of_mem_zip hp).1

theorem parWrite_get_zip_map {α : Type} (f : Doc → α → Doc) (h : Nat → α) :
    ∀ (idxs : List Nat) (s : List Doc) {i : Nat}, idxs.Nodup → i ∈ idxs →
      i < s.length →
      getDoc (parWrite f s (idxs.zip (idxs.map h))) i = f (getDoc s i) (h i) := by
  intro idxs
  induction idxs with
  | nil => intro s i _ hmem _; simp at hmem
  | cons j rest ih =>
    intro s i hnd hmem hlen
    have hndr : rest.Nodup := hnd.of_cons
    have hjrest : j ∉ rest := by
      simpa using (List.nodup_cons.mp hnd).1
    simp only [List.map_cons, List.zip_cons_cons, parWrite, List.foldl_cons]
    rcases List.mem_cons.mp hmem with rfl | hir
    · have hnotin : i ∉ (rest.zip (rest.map h)).map Prod.fst :=
        not_mem_zip_fst _ hjrest
      calc getDoc ((rest.zip (rest.map h)).foldl
              (fun s p => updIdx (fun d => f d p.2) s p.1)
              (updIdx (fun d => f d (h i)) s i)) i
          = getDoc (updIdx (fun d => f d (h i)) s i) i :=
            parWrite_get_not_mem f _ _ hnotin
        _ = f (getDoc s i) (h i) := getDoc_updIdx_eq _ s hlen
    · have hij : i ≠ j := fun hij => hjrest (hij ▸ hir)
      have hstep : getDoc (updIdx (fun d => f d (h j)) s j) i = getDoc s i :=
        getDoc_updIdx_ne _ s hij
      have hlen' : i < (updIdx (fun d => f d (h j)) s j).length := by
        rw [updIdx_length]; exact hlen
      calc getDoc ((rest.zip (rest.map h)).foldl
              (fun s p => updIdx (fun d => f d p.2) s p.1)
              (updIdx (fun d => f d (h j)) s j)) i
          = f (getDoc (updIdx (fun d => f d (h j)) s j) i) (h i) :=
            ih _ hndr hir hlen'
        _ = f (getDoc s i) (h i) := by rw [hstep]

/-- Contract of one minibatch step at a processed index: the three content
fields afterwards hold exactly the saved original content (written back by
the restore loop). -/
def restoredFrom (d' d : Doc) : Prop :=
  d'.text = d.content.textF ∧ d'.blob = d.content.blobF ∧
    d'.tensor = d.content.tensorF

theorem processImgChunk_length (B : Backend) (C : Config) (store : List Doc)
    (idxs : List Nat) : (processImgChunk B C store idxs).length = store.length := by
  simp only [processImgChunk]
  rw [parWrite_length, parWrite_length, parWrite_length]

theorem processTxtChunk_length (B : Backend) (C : Config) (store : List Doc)
    (idxs : List Nat) : (processTxtChunk B C store idxs).length = store.length := by
  simp only [processTxtChunk]
  rw [parWrite_length, parWrite_length, parWrite_length]

theorem processImgChunk_map_proj {β : Type} (g : Doc → β)
    (hgt : ∀ d v, g (setTensorField d v) = g d)
    (hge : ∀ d v, g (setEmbedding d v) = g d)
    (hgc : ∀ d c, g (d.withContent c) = g d)
    (B : Backend) (C : Config) (store : List Doc) (idxs : List Nat) :
    (processImgChunk B C store idxs).map g = store.map g := by
  simp only [processImgChunk]
  rw [parWrite_map_proj g _ hgc, parWrite_map_proj g _ hge,
    parWrite_map_proj g _ hgt]

theorem processTxtChunk_map_proj {β : Type} (g : Doc → β)
    (hgt : ∀ d v, g (setTensorField d v) = g d)
    (hge : ∀ d v, g (setEmbedding d v) = g d)
    (hgc : ∀ d c, g (d.withContent c) = g d)
    (B : Backend) (C : Config) (store : List Doc) (idxs : List Nat) :
    (processTxtChunk B C store idxs).map g = store.map g := by
  simp only [processTxtChunk]
  rw [parWrite_map_proj g _ hgc, parWrite_map_proj g _ hge,
    parWrite_map_proj g _ hgt]

theorem processImgChunk_get_not_mem (B : Backend) (C : Config)
    (store : List Doc) (idxs : List Nat) {i : Nat} (h : i ∉ idxs) :
    getDoc (processImgChunk B C store idxs) i = getDoc store i := by
  simp only [processImgChunk]
  rw [parWrite_get_not_mem _ _ _ (not_mem_zip_fst _ h),
    parWrite_get_not_mem _ _ _ (not_mem_zip_fst _ h),
    parWrite_get_not_mem _ _ _ (not_mem_zip_fst _ h)]

theorem processTxtChunk_get_not_mem (B : Backend) (C : Config)
    (store : List Doc) (idxs : List Nat) {i : Nat} (h : i ∉ idxs) :
    getDoc (processTxtChunk B C store idxs) i = getDoc store i := by
  simp only [processTxtChunk]
  rw [parWrite_get_not_mem _ _ _ (not_mem_zip_fst _ h),
    parWrite_get_not_mem _ _ _ (not_mem_zip_fst _ h),
    parWrite_get_not_mem _ _ _ (not_mem_zip_fst _ h)]

theorem processImgChunk_restored (B : Backend) (C : Config)
    (store : List Doc) (idxs : List Nat) {i : Nat} (hnd : idxs.Nodup)
    (hm : i ∈ idxs) (hlt : i < store.length) :
    restoredFrom (getDoc (processImgChunk B C store idxs) i)
      (getDoc store i) := by
  simp only [processImgChunk]
  have hlt2 : i < (parWrite setEmbedding
      (parWrite setTensorField store
        (idxs.zip (if C.use_default_preprocessing then
          B.pixelValues (idxs.map fun i => rawImageTensor B (getDoc store i))
        else
          B.castPixel (idxs.map fun i => rawImageTensor B (getDoc store i)))))
      (idxs.zip (B.imageFeatures (idxs.map fun i =>
        (getDoc (parWrite setTensorField store
          (idxs.zip (if C.use_default_preprocessing then
            B.pixelValues (idxs.map fun i => rawImageTensor B (getDoc store i))
          else
            B.castPixel (idxs.map fun i =>
              rawImageTensor B (getDoc store i))))) i).tensor.getD [])))).length := by
    rw [parWrite_length, parWrite_length]; exact hlt
  rw [parWrite_get_zip_map Doc.withContent
    (fun j => (getDoc store j).content) idxs _ hnd hm hlt2]
  exact ⟨rfl, rfl, rfl⟩

theorem processTxtChunk_restored (B : Backend) (C : Config)
    (store : List Doc) (idxs : List Nat) {i : Nat} (hnd : idxs.Nodup)
    (hm : i ∈ idxs) (hlt : i < store.length) :
    restoredFrom (getDoc (processTxtChunk B C store idxs) i)
      (getDoc store i) := by
  simp only [processTxtChunk]
  have hlt2 : i < (parWrite setEmbedding
      (parWrite setTensorField store
        (idxs.zip (B.tokenizeIds (idxs.map fun i =>
          (getDoc store i).text.getD ""))))
      (idxs.zip (B.textFeatures (idxs.map fun i =>
        (getDoc (parWrite setTensorField store
          (idxs.zip (B.tokenizeIds (idxs.map fun i =>
            (getDoc store i).text.getD "")))) i).tensor.getD [])))).length := by
    rw [parWrite_length, parWrite_length]; exact hlt
  rw [parWrite_get_zip_map Doc.withContent
    (fun j => (getDoc store j).content) idxs _ hnd hm hlt2]
  exact ⟨rfl, rfl, rfl⟩

theorem chunksFold_length (step : List Doc → List Nat → List Doc)
    (hlen : ∀ s idxs, (step s idxs).length = s.length) (b : Nat) :
    ∀ (fuel : Nat) (l : List Nat) (store : List Doc),
      ((chunksAux b fuel l).foldl step store).length = store.length := by
  intro fuel
  induction fuel with
  | zero => intro l store; rfl
  | succ f ih =>
    intro l store
    cases l with
    | nil => rfl
    | cons x xs =>
      simp only [chunksAux, List.foldl_cons]
      exact (ih _ _).trans (hlen store _)

theorem chunksFold_not_mem (step : List Doc → List Nat → List Doc)
    (hnm : ∀ s idxs j, j ∉ idxs → getDoc (step s idxs) j = getDoc s j)
    (b : Nat) :
    ∀ (fuel : Nat) (l : List Nat) (store : List Doc) (i : Nat), i ∉ l →
      getDoc ((chunksAux b fuel l).foldl step store) i = getDoc store i := by
  intro fuel
  induction fuel with
  | zero => intro l store i _; rfl
  | succ f ih =>
    intro l store i hm
    cases l with
    | nil => rfl
    | cons x xs =>
      simp only [chunksAux, List.foldl_cons]
      have h1 : i ∉ (x :: xs).take b :=
        fun h => hm (List.take_subset _ _ h)
      have h2 : i ∉ (x :: xs).drop b :=
        fun h => hm (List.drop_subset _ _ h)
      exact (ih _ _ i h2).trans (hnm store _ i h1)

theorem chunksFold_map_proj {β : Type} (step : List Doc → List Nat → List Doc)
    (g : Doc → β) (hstep : ∀ s idxs, (step s idxs).map g = s.map g) (b : Nat) :
    ∀ (fuel : Nat) (l : List Nat) (store : List Doc),
      ((chunksAux b fuel l).foldl step store).map g = store.map g := by
  intro fuel
  induction fuel with
  | zero => intro l store; rfl
  | succ f ih =>
    intro l store
    cases l with
    | nil => rfl
    | cons x xs =>
      simp only [chunksAux, List.foldl_cons]
      exact (ih _ _).trans (hstep store _)

theorem chunksFold_mem (step : List Doc → List Nat → List Doc)
    (P : Doc → Doc → Prop)
    (hlen : ∀ s idxs, (step s idxs).length = s.length)
    (hnm : ∀ s idxs j, j ∉ idxs → getDoc (step s idxs) j = getDoc s j)
    (hmem : ∀ s idxs j, idxs.Nodup → j ∈ idxs → j < s.length →
      P (getDoc (step s idxs) j) (getDoc s j))
    (b : Nat) (hb : 1 ≤ b) :
    ∀ (fuel : Nat) (l : List Nat) (store : List Doc) (i : Nat),
      l.length ≤ fuel → l.Nodup → i ∈ l → i < store.length →
      P (getDoc ((chunksAux b fuel l).foldl step store) i) (getDoc store i) := by
  intro fuel
  induction fuel with
  | zero =>
    intro l store i hf hnd hm hlt
    have hl : l = [] := List.eq_nil_of_length_eq_zero (Nat.le_zero.mp hf)
    subst hl; simp at hm
  | succ f ih =>
    intro l store i hf hnd hm hlt
    cases l with
    | nil => simp at hm
    | cons x xs =>
      simp only [chunksAux, List.foldl_cons]
      have hsplit := List.take_append_drop b (x :: xs)
      by_cases hic : i ∈ (x :: xs).take b
      · have hnd1 : ((x :: xs).take b).Nodup :=
          (List.take_sublist b (x :: xs)).nodup hnd
        have hP := hmem store _ i hnd1 hic hlt
        have hid : i ∉ (x :: xs).drop b := by
          have h2 : ((x :: xs).take b ++ (x :: xs).drop b).Nodup := by
            rw [hsplit]; exact hnd
          exact fun hmem2 => (List.nodup_append.mp h2).2.2 hic hmem2
        rw [chunksFold_not_mem step hnm b f _ _ i hid]
        exact hP
      · have him : i ∈ (x :: xs).drop b := by
          have hm2 : i ∈ (x :: xs).take b ++ (x :: xs).drop b := by
            rw [hsplit]; exact hm
          exact (List.mem_append.mp hm2).resolve_left hic
        have hstep : getDoc (step store ((x :: xs).take b)) i = getDoc store i :=
          hnm _ _ _ hic
        have hlt1 : i < (step store ((x :: xs).take b)).length := by
          rw [hlen]; exact hlt
        have hf1 : ((x :: xs).drop b).length ≤ f := by
          simp only [List.length_drop, List.length_cons]
          simp only [List.length_cons] at hf
          omega
        have hnd2 : ((x :: xs).drop b).Nodup :=
          (List.drop_sublist b (x :: xs)).nodup hnd
        have hres := ih _ _ i hf1 hnd2 him hlt1
        rw [hstep] at hres
        exact hres

theorem encode_map_proj {β : Type} (g : Doc → β)
    (hgt : ∀ d v, g (setTensorField d v) = g d)
    (hge : ∀ d v, g (setEmbedding d v) = g d)
    (hgc : ∀ d c, g (d.withContent c) = g d)
    (hgd : ∀ d, g { d with tensor := none } = g d)
    (B : Backend) (C : Config) (p : Params) (docs : List Doc) :
    (encode B C p docs).map g = docs.map g := by
  simp only [encode, chunks]
  have h1 : ∀ (s : List Doc),
      (s.map fun d => { d with tensor := none }).map g = s.map g := by
    intro s
    rw [List.map_map]
    exact List.map_congr_left fun d _ => hgd d
  rw [h1]
  rw [chunksFold_map_proj _ g
    (fun s idxs => processTxtChunk_map_proj g hgt hge hgc B C s idxs) _ _ _ _]
  exact chunksFold_map_proj _ g
    (fun s idxs => processImgChunk_map_proj g hgt hge hgc B C s idxs) _ _ _ _

theorem encode_map_id (B : Backend) (C : Config) (p : Params)
    (docs : List Doc) : (encode B C p docs).map Doc.id = docs.map Doc.id :=
  encode_map_proj Doc.id (fun _ _ => rfl) (fun _ _ => rfl) (fun _ _ => rfl)
    (fun _ => rfl) B C p docs

theorem encode_map_uri (B : Backend) (C : Config) (p : Params)
    (docs : List Doc) : (encode B C p docs).map Doc.uri = docs.map Doc.uri :=
  encode_map_proj Doc.uri (fun _ _ => rfl) (fun _ _ => rfl) (fun _ _ => rfl)
    (fun _ => rfl) B C p docs

theorem encode_length (B : Backend) (C : Config) (p : Params)
    (docs : List Doc) : (encode B C p docs).length = docs.length := by
  have h := congrArg List.length (encode_map_id B C p docs)
  simpa using h

theorem content_eq_ctext {d : Doc} {s : String} (h : d.content = .ctext s) :
    d.text = some s ∧ s ≠ "" := by
  unfold Doc.content at h
  split at h
  case isTrue ht =>
    simp only [Content.ctext.injEq] at h
    subst h
    refine ⟨?_, ht⟩
    cases htext : d.text with
    | none => rw [htext] at ht; simp at ht
    | some a => simp [htext]
  case isFalse ht =>
    split at h
    · simp at h
    · split at h <;> simp_all

theorem content_eq_cblob {d : Doc} {b : Blob} (h : d.content = .cblob b) :
    d.text.getD "" = "" ∧ d.blob = some b ∧ b ≠ [] := by
  unfold Doc.content at h
  split at h
  case isTrue ht => simp at h
  case isFalse ht =>
    refine ⟨by simpa using ht, ?_⟩
    split at h
    case isTrue hbl =>
      simp only [Content.cblob.injEq] at h
      subst h
      refine ⟨?_, hbl⟩
      cases hblob : d.blob with
      | none => rw [hblob] at hbl; simp at hbl
      | some bs => simp [hblob]
    case isFalse hbl => split at h <;> simp_all

theorem content_eq_cnone {d : Doc} (h : d.content = .cnone) :
    d.text.getD "" = "" ∧ d.blob.getD [] = [] ∧ d.tensor = none := by
  unfold Doc.content at h
  split at h
  case isTrue ht => simp at h
  case isFalse ht =>
    refine ⟨by simpa using ht, ?_⟩
    split at h
    case isTrue hbl => simp at h
    case isFalse hbl =>
      refine ⟨by simpa using hbl, ?_⟩
      split at h
      · simp_all
      · assumption

theorem classify_of_ctext {d : Doc} {s : String} (h : d.content = .ctext s) :
    classify d = .mtext := by
  obtain ⟨ht, hs⟩ := content_eq_ctext h
  have hc : d.text.getD "" ≠ "" := by rw [ht]; simpa using hs
  simp [classify, hc]

theorem classify_of_cblob {d : Doc} {b : Blob} (h : d.content = .cblob b) :
    classify d = .mimage := by
  obtain ⟨ht, hb, hbne⟩ := content_eq_cblob h
  have hc : d.blob.getD [] ≠ [] := by rw [hb]; simpa using hbne
  simp [classify, ht, hc]

theorem mem_imageIdxs {docs : List Doc} {i : Nat} :
    i ∈ imageIdxs docs ↔
      i < docs.length ∧ classify (getDoc docs i) = .mimage := by
  simp [imageIdxs, List.mem_filter, List.mem_range]

theorem mem_textIdxs {docs : List Doc} {i : Nat} :
    i ∈ textIdxs docs ↔
      i < docs.length ∧ classify (getDoc docs i) = .mtext := by
  simp [textIdxs, List.mem_filter, List.mem_range]

theorem imageIdxs_nodup (docs : List Doc) : (imageIdxs docs).Nodup :=
  (List.nodup_range _).filter _

theorem textIdxs_nodup (docs : List Doc) : (textIdxs docs).Nodup :=
  (List.nodup_range _).filter _

theorem encode_content_cases (B : Backend) (C : Config) (p : Params)
    (docs : List Doc) (i : Nat) (hb : 1 ≤ C.minibatch_size)
    (hi : i < docs.length) :
    (getDoc (encode B C p docs) i).uri = (getDoc docs i).uri ∧
    (∀ s, (getDoc docs i).content = .ctext s →
      (getDoc (encode B C p docs) i).content = .ctext s) ∧
    (∀ bb, (getDoc docs i).content = .cblob bb →
      (getDoc (encode B C p docs) i).content = .cblob bb) ∧
    ((getDoc docs i).content = .cnone →
      (getDoc (encode B C p docs) i).content = .cnone) := by
  have hEdef : encode B C p docs =
      ((chunksAux C.minibatch_size (textIdxs docs).length (textIdxs docs)).foldl
        (processTxtChunk B C)
        ((chunksAux C.minibatch_size (imageIdxs docs).length
          (imageIdxs docs)).foldl (processImgChunk B C) docs)).map
        (fun d => { d with tensor := none }) := by
    simp only [encode, chunks]
  have huri : (getDoc (encode B C p docs) i).uri = (getDoc docs i).uri :=
    getDoc_map_proj Doc.uri docs (encode B C p docs) i (encode_map_uri B C p docs)
  refine ⟨huri, ?_, ?_, ?_⟩
  all_goals
    set s1 := (chunksAux C.minibatch_size (imageIdxs docs).length
      (imageIdxs docs)).foldl (processImgChunk B C) docs with hs1def
    set s2 := (chunksAux C.minibatch_size (textIdxs docs).length
      (textIdxs docs)).foldl (processTxtChunk B C) s1 with hs2def
    have hs1len : s1.length = docs.length :=
      chunksFold_length _ (fun s idxs => processImgChunk_length B C s idxs) _ _ _ _
    have hs2len : s2.length = s1.length :=
      chunksFold_length _ (fun s idxs => processTxtChunk_length B C s idxs) _ _ _ _
    have hEi : getDoc (encode B C p docs) i = { getDoc s2 i with tensor := none } := by
      rw [hEdef]
      exact getDoc_map _ s2 i (by rw [hs2len, hs1len]; exact hi)
  -- text content is preserved
  · intro s hct
    have hcl := classify_of_ctext hct
    have hni : i ∉ imageIdxs docs := by
      rw [mem_imageIdxs]
      rintro ⟨-, hc2⟩
      rw [hcl] at hc2
      simp at hc2
    have hs1i : getDoc s1 i = getDoc docs i :=
      chunksFold_not_mem _
        (fun s idxs j hj => processImgChunk_get_not_mem B C s idxs hj)
        _ _ _ _ _ hni
    have hmt : i ∈ textIdxs docs := mem_textIdxs.mpr ⟨hi, hcl⟩
    have hlt1 : i < s1.length := by rw [hs1len]; exact hi
    have hrest : restoredFrom (getDoc s2 i) (getDoc s1 i) :=
      chunksFold_mem _ restoredFrom
        (fun s idxs => processTxtChunk_length B C s idxs)
        (fun s idxs j hj => processTxtChunk_get_not_mem B C s idxs hj)
        (fun s idxs j h1 h2 h3 => processTxtChunk_restored B C s idxs h1 h2 h3)
        _ hb _ _ _ _ (le_refl _) (textIdxs_nodup docs) hmt hlt1
    obtain ⟨htext, hblob, htensor⟩ := hrest
    rw [hs1i, hct] at htext
    simp only [Content.textF] at htext
    have hsne : s ≠ "" := (content_eq_ctext hct).2
    rw [hEi]
    simp [Doc.content, htext, hsne]
  -- blob content is preserved
  · intro bb hcb
    have hcl := classify_of_cblob hcb
    have hmi : i ∈ imageIdxs docs := mem_imageIdxs.mpr ⟨hi, hcl⟩
    have hrest : restoredFrom (getDoc s1 i) (getDoc docs i) :=
      chunksFold_mem _ restoredFrom
        (fun s idxs => processImgChunk_length B C s idxs)
        (fun s idxs j hj => processImgChunk_get_not_mem B C s idxs hj)
        (fun s idxs j h1 h2 h3 => processImgChunk_restored B C s idxs h1 h2 h3)
        _ hb _ _ _ _ (le_refl _) (imageIdxs_nodup docs) hmi hi
    have hnt : i ∉ textIdxs docs := by
      rw [mem_textIdxs]
      rintro ⟨-, hc2⟩
      rw [hcl] at hc2
      simp at hc2
    have hs2i : getDoc s2 i = getDoc s1 i :=
      chunksFold_not_mem _
        (fun s idxs j hj => processTxtChunk_get_not_mem B C s idxs hj)
        _ _ _ _ _ hnt
    obtain ⟨htext, hblob, htensor⟩ := hrest
    rw [hcb] at htext hblob
    simp only [Content.textF, Content.blobF] at htext hblob
    have hbne : bb ≠ [] := (content_eq_cblob hcb).2.2
    rw [hEi, hs2i]
    simp [Doc.content, htext, hblob, hbne]
  -- empty content stays empty
  · intro hc0
    obtain ⟨ht0, hb0, hten0⟩ := content_eq_cnone hc0
    by_cases huri2 : (getDoc docs i).uri.getD "" ≠ ""
    · have hcl : classify (getDoc docs i) = .mimage := by
        unfold classify
        rw [if_neg (by simp [ht0]), if_pos (Or.inr (Or.inr huri2))]
      have hmi : i ∈ imageIdxs docs := mem_imageIdxs.mpr ⟨hi, hcl⟩
      have hrest : restoredFrom (getDoc s1 i) (getDoc docs i) :=
        chunksFold_mem _ restoredFrom
          (fun s idxs => processImgChunk_length B C s idxs)
          (fun s idxs j hj => processImgChunk_get_not_mem B C s idxs hj)
          (fun s idxs j h1 h2 h3 => processImgChunk_restored B C s idxs h1 h2 h3)
          _ hb _ _ _ _ (le_refl _) (imageIdxs_nodup docs) hmi hi
      have hnt : i ∉ textIdxs docs := by
        rw [mem_textIdxs]
        rintro ⟨-, hc2⟩
        rw [hcl] at hc2
        simp at hc2
      have hs2i : getDoc s2 i = getDoc s1 i :=
        chunksFold_not_mem _
          (fun s idxs j hj => processTxtChunk_get_not_mem B C s idxs hj)
          _ _ _ _ _ hnt
      obtain ⟨htext, hblob, htensor⟩ := hrest
      rw [hc0] at htext hblob
      simp only [Content.textF, Content.blobF] at htext hblob
      rw [hEi, hs2i]
      simp [Doc.content, htext, hblob]
    · have hcl : classify (getDoc docs i) = .mnone := by
        unfold classify
        rw [if_neg (by simp [ht0]), if_neg]
        push_neg at huri2 ⊢
        refine ⟨hb0, ?_, huri2⟩
        rw [hten0]; simp
      have hni : i ∉ imageIdxs docs := by
        rw [mem_imageIdxs]
        rintro ⟨-, hc2⟩
        rw [hcl] at hc2
        simp at hc2
      have hnt : i ∉ textIdxs docs := by
        rw [mem_textIdxs]
        rintro ⟨-, hc2⟩
        rw [hcl] at hc2
        simp at hc2
      have hs1i : getDoc s1 i = getDoc docs i :=
        chunksFold_not_mem _
          (fun s idxs j hj => processImgChunk_get_not_mem B C s idxs hj)
          _ _ _ _ _ hni
      have hs2i : getDoc s2 i = getDoc s1 i :=
        chunksFold_not_mem _
          (fun s idxs j hj => processTxtChunk_get_not_mem B C s idxs hj)
          _ _ _ _ _ hnt
      rw [hEi, hs2i, hs1i]
      simp [Doc.content, ht0, hb0]

theorem insertDesc_perm (key : Doc → ℚ) (x : Doc) :
    ∀ l : List Doc, (insertDesc key x l).Perm (x :: l) := by
  intro l
  induction l with
  | nil => exact List.Perm.refl _
  | cons y ys ih =>
    by_cases h : key x < key y
    · simp only [insertDesc, if_pos h]
      exact (ih.cons y).trans (List.Perm.swap x y ys)
    · simp only [insertDesc, if_neg h]
      exact List.Perm.refl _

theorem sortDesc_perm (key : Doc → ℚ) :
    ∀ l : List Doc, (sortDesc key l).Perm l := by
  intro l
  induction l with
  | nil => exact List.Perm.refl _
  | cons x xs ih =>
    simp only [sortDesc]
    exact (insertDesc_perm key x (sortDesc key xs)).trans (ih.cons x)

theorem pairwise_insertDesc (key : Doc → ℚ) (x : Doc) :
    ∀ l : List Doc, l.Pairwise (fun a b => key b ≤ key a) →
      (insertDesc key x l).Pairwise (fun a b => key b ≤ key a) := by
  intro l
  induction l with
  | nil => intro _; simp [insertDesc]
  | cons y ys ih =>
    intro hp
    rw [List.pairwise_cons] at hp
    obtain ⟨hy, hys⟩ := hp
    by_cases h : key x < key y
    · simp only [insertDesc, if_pos h]
      rw [List.pairwise_cons]
      refine ⟨?_, ih hys⟩
      intro z hz
      rcases List.mem_cons.mp ((insertDesc_perm key x ys).mem_iff.mp hz) with
        rfl | hzys
      · exact le_of_lt h
      · exact hy z hzys
    · simp only [insertDesc, if_neg h]
      rw [List.pairwise_cons]
      constructor
      · intro z hz
        rcases List.mem_cons.mp hz with rfl | hzys
        · exact not_lt.mp h
        · exact le_trans (hy z hzys) (not_lt.mp h)
      · exact List.pairwise_cons.mpr ⟨hy, hys⟩

theorem pairwise_sortDesc (key : Doc → ℚ) :
    ∀ l : List Doc, (sortDesc key l).Pairwise (fun a b => key b ≤ key a) := by
  intro l
  induction l with
  | nil => simp [sortDesc]
  | cons x xs ih =>
    simp only [sortDesc]
    exact pairwise_insertDesc key x _ ih

theorem filter_insertDesc_ne (key : Doc → ℚ) (x : Doc) (q : ℚ)
    (h : key x ≠ q) :
    ∀ l : List Doc,
      (insertDesc key x l).filter (fun m => decide (key m = q)) =
        l.filter (fun m => decide (key m = q)) := by
  intro l
  induction l with
  | nil => simp [insertDesc, h]
  | cons y ys ih =>
    by_cases hlt : key x < key y
    · simp only [insertDesc, if_pos hlt]
      simp [List.filter_cons, ih]
    · simp only [insertDesc, if_neg hlt]
      simp [List.filter_cons, h]

theorem filter_insertDesc_eq (key : Doc → ℚ) (x : Doc) (q : ℚ)
    (h : key x = q) :
    ∀ l : List Doc,
      (insertDesc key x l).filter (fun m => decide (key m = q)) =
        x :: l.filter (fun m => decide (key m = q)) := by
  intro l
  induction l with
  | nil => simp [insertDesc, h]
  | cons y ys ih =>
    by_cases hlt : key x < key y
    · have hyq : ¬ key y = q := by rw [← h]; exact hlt.ne'
      simp only [insertDesc, if_pos hlt]
      simp [List.filter_cons, hyq, ih]
    · simp only [insertDesc, if_neg hlt]
      simp [List.filter_cons, h]

theorem filter_sortDesc (key : Doc → ℚ) (q : ℚ) :
    ∀ l : List Doc,
      (sortDesc key l).filter (fun m => decide (key m = q)) =
        l.filter (fun m => decide (key m = q)) := by
  intro l
  induction l with
  | nil => rfl
  | cons x xs ih =>
    by_cases h : key x = q
    · simp only [sortDesc]
      rw [filter_insertDesc_eq key x q h, ih]
      simp [List.filter_cons, h]
    · simp only [sortDesc]
      rw [filter_insertDesc_ne key x q h, ih]
      simp [List.filter_cons, h]

theorem scoreMatches_map_key (e : ℚ → ℚ) (scale : ℚ) (raw : Doc → Doc → ℚ)
    (a : RootDoc) :
    (scoreMatches e scale raw a).map clipKey =
      a.matches'.map fun m =>
        e (scale * raw a.root m) /
          (a.matches'.map fun m => e (scale * raw a.root m)).sum := by
  simp [scoreMatches, clipKey, List.map_map, Function.comp]

theorem setRankOne_sum (e : ℚ → ℚ) (scale : ℚ) (raw : Doc → Doc → ℚ)
    (a : RootDoc) (he : ∀ x, 0 < e x) (hne : a.matches' ≠ []) :
    ((setRankOne e scale raw a).matches'.map clipKey).sum = 1 := by
  have hperm : ((setRankOne e scale raw a).matches').Perm
      (scoreMatches e scale raw a) := by
    simp only [setRankOne]
    exact sortDesc_perm clipKey _
  rw [(hperm.map clipKey).sum_eq, scoreMatches_map_key]
  have htpos : 0 < (a.matches'.map fun m => e (scale * raw a.root m)).sum := by
    apply List.sum_pos
    · intro x hx
      rcases List.mem_map.mp hx with ⟨m, _, rfl⟩
      exact he _
    · simpa using hne
  simp only [div_eq_mul_inv]
  rw [List.sum_map_mul_right]
  exact mul_inv_cancel₀ htpos.ne'

/-- Concrete text document carrying a pre-existing embedding. -/
def dText : Doc := { id := "p", text := some "a", embedding := some [5] }

/-- Concrete text document. -/
def dTextA : Doc := { id := "a", text := some "a" }

/-- Concrete text document. -/
def dTextB : Doc := { id := "b", text := some "b" }

/-- Concrete image document supplied as a raw tensor. -/
def dTensor : Doc := { id := "t", tensor := some [3] }

/-- Concrete document on which both a blob and a tensor are somehow set. -/
def dBoth : Doc := { id := "x", blob := some [1], tensor := some [7] }

/-- Default executor configuration. -/
def Cdefault : Config := {}

/-- Configuration with a small default minibatch size. -/
def Csmall : Config := { minibatch_size := 2 }

/-- Concrete anchor with two matches. -/
def anchorEx : RootDoc := ⟨dTextA, [{ id := "m1" }, { id := "m2" }]⟩

/-- Tuner input: CPU device, OMP_NUM_THREADS present, 4 replicas sharing 4
threads. -/
def tunerOmp : TunerInput :=
  { device := "cpu", ompPresent := true, replicas? := some 4, totalThreads := 4 }

/-- Tuner input: CPU device, OMP_NUM_THREADS absent, 4 replicas sharing 4
threads. -/
def tunerCpu : TunerInput :=
  { device := "cpu", ompPresent := false, replicas? := some 4, totalThreads := 4 }

/-- C1: for every input collection, encode returns the collection with the
same length and the same document (same id) at every position, for every
configuration, request parameters, backend and modality mix; the modelled
ranking step likewise preserves the top-level collection. -/
theorem claim1_encode_rank_preserve_order (B : Backend) (C : Config)
    (p : Params) (docs : List Doc) (e : ℚ → ℚ) (scale : ℚ)
    (raw : Doc → Doc → ℚ) (roots : List RootDoc) :
    (encode B C p docs).map Doc.id = docs.map Doc.id ∧
    (setRankAll e scale raw roots).map (fun a => a.root.id) =
      roots.map fun a => a.root.id := by
  refine ⟨encode_map_id B C p docs, ?_⟩
  simp [setRankAll, setRankOne, List.map_map, Function.comp]

/-- C2 (code-bug evidence): a document that already carries the embedding
`[5]` is re-encoded by encode even though `overwrite_embeddings` is false:
afterwards its embedding is the freshly computed `[1]`.  The source reads
the flag (line 205) but the filter that would honour it is commented out
(lines 213-229). -/
theorem claim2_embedding_overwritten_despite_flag :
    dText.embedding = some [(5 : ℚ)] ∧
    (getDoc (encode Bex Cdefault { overwrite_embeddings := some false }
      [dText]) 0).embedding = some [(1 : ℚ)] ∧
    some [(1 : ℚ)] ≠ dText.embedding := by
  refine ⟨rfl, by decide, by decide⟩

/-- C3 (code-bug evidence): every rank invocation fails with TypeError
before any encoding or scoring happens, because `rank` calls
`self.encode(docs['@r,m'])` without the `parameters` argument that encode's
signature requires. -/
theorem claim3_rank_always_typeerror (B : Backend) (C : Config) (e : ℚ → ℚ)
    (scale : ℚ) (raw : Doc → Doc → ℚ) (roots : List RootDoc) :
    rank B C e scale raw roots = .error .typeError := rfl

/-- C4 (code-bug evidence): with configured minibatch size 2 and request
parameter `batch_size = 1`, the two text documents are still encoded in one
minibatch of size 2 (the backend records the minibatch length in each
embedding), although the request-level value read on line 204 is 1. -/
theorem claim4_batch_size_param_ignored :
    requestBatchSize Csmall { batch_size := some 1 } = 1 ∧
    (encode Bex Csmall { batch_size := some 1 } [dTextA, dTextB]).map
      Doc.embedding = [some [(2 : ℚ)], some [(2 : ℚ)]] := by
  refine ⟨rfl, by decide⟩

/-- C5 (counterexample): on a document with both a blob and a tensor set,
`_preproc_images` uses the blob, not the tensor — the claimed tensor-first
priority is false. -/
theorem claim5_counterexample :
    dBoth.tensor = some [7] ∧
    rawImageTensor Bex dBoth = Bex.blobToTensor [1] ∧
    rawImageTensor Bex dBoth ≠ [7] := by
  refine ⟨rfl, rfl, by decide⟩

/-- C5 (amended): the content used for image preprocessing is selected with
the byte-blob taking precedence, then the tensor, then the URI. -/
theorem claim5_blob_first_priority (B : Backend) (d : Doc) :
    (d.blob.getD [] ≠ [] →
      rawImageTensor B d = B.blobToTensor (d.blob.getD [])) ∧
    (d.blob.getD [] = [] → ∀ t, d.tensor = some t →
      rawImageTensor B d = t) ∧
    (d.blob.getD [] = [] → d.tensor = none →
      rawImageTensor B d = B.uriToTensor (d.uri.getD "")) := by
  refine ⟨?_, ?_, ?_⟩
  · intro h; simp [rawImageTensor, h]
  · intro h t ht; simp [rawImageTensor, h, ht]
  · intro h ht; simp [rawImageTensor, h, ht]

/-- C5 witness: the blob branch of the priority theorem at a concrete
document with both blob and tensor set. -/
theorem claim5_blob_first_priority_witness :
    rawImageTensor Bex dBoth = Bex.blobToTensor (dBoth.blob.getD []) :=
  (claim5_blob_first_priority Bex dBoth).1 (by decide)

/-- C6 (counterexample): a document supplied as a raw image tensor does not
round-trip: after encode its content is empty, because the final
`docs.tensors = None` drops the restored tensor. -/
theorem claim6_counterexample :
    dTensor.content = .ctensor [3] ∧
    (getDoc (encode Bex Cdefault {} [dTensor]) 0).content = .cnone := by
  refine ⟨by decide, by decide⟩

/-- C6 (amended): encode preserves the original content of every document
whose content is a text string, a byte-blob, or empty (URI documents
included — the uri field itself is always preserved); only documents whose
content is a raw image tensor lose it to the final transient-tensor drop. -/
theorem claim6_nontensor_content_roundtrip (B : Backend) (C : Config)
    (p : Params) (docs : List Doc) (i : Nat) (hb : 1 ≤ C.minibatch_size)
    (hi : i < docs.length) :
    (getDoc (encode B C p docs) i).uri = (getDoc docs i).uri ∧
    (∀ s, (getDoc docs i).content = .ctext s →
      (getDoc (encode B C p docs) i).content = .ctext s) ∧
    (∀ bb, (getDoc docs i).content = .cblob bb →
      (getDoc (encode B C p docs) i).content = .cblob bb) ∧
    ((getDoc docs i).content = .cnone →
      (getDoc (encode B C p docs) i).content = .cnone) :=
  encode_content_cases B C p docs i hb hi

/-- C6 witness: the text branch of the round-trip theorem at a concrete
text document. -/
theorem claim6_nontensor_content_roundtrip_witness :
    (getDoc (encode Bex Cdefault {} [dTextA]) 0).content = .ctext "a" :=
  (claim6_nontensor_content_roundtrip Bex Cdefault {} [dTextA] 0 (by decide)
    (by decide)).2.1 "a" (by decide)

/-- C7: after the modelled scoring/sorting step, for every anchor with at
least one match, the clip_score values (each the softmax of the scaled raw
scores over all of the anchor's matches by construction of `scoreMatches`)
sum to exactly 1, for every positive exponential. -/
theorem claim7_scores_sum_to_one (e : ℚ → ℚ) (scale : ℚ)
    (raw : Doc → Doc → ℚ) (a : RootDoc) (he : ∀ x, 0 < e x)
    (hne : a.matches' ≠ []) :
    ((setRankOne e scale raw a).matches'.map clipKey).sum = 1 :=
  setRankOne_sum e scale raw a he hne

/-- C7 witness: the sum-to-one theorem at a concrete anchor with two
matches and a concrete positive exponential. -/
theorem claim7_scores_sum_to_one_witness :
    ((setRankOne (fun _ => (1 : ℚ)) 1 (fun _ _ => 0) anchorEx).matches'.map
      clipKey).sum = 1 :=
  claim7_scores_sum_to_one (fun _ => (1 : ℚ)) 1 (fun _ _ => 0) anchorEx
    (fun _ => one_pos) (by decide)

/-- C8: after the modelled scoring/sorting step, the match list carries
non-increasing clip_score values, and for every score value the matches
holding it appear in their pre-sort (original) relative order — the sort is
stable. -/
theorem claim8_sorted_descending_stable (e : ℚ → ℚ) (scale : ℚ)
    (raw : Doc → Doc → ℚ) (a : RootDoc) :
    ((setRankOne e scale raw a).matches'.map clipKey).Pairwise (· ≥ ·) ∧
    ∀ q : ℚ,
      (setRankOne e scale raw a).matches'.filter
          (fun m => decide (clipKey m = q)) =
        (scoreMatches e scale raw a).filter fun m => decide (clipKey m = q) := by
  constructor
  · rw [List.pairwise_map]
    exact pairwise_sortDesc clipKey _
  · intro q
    simp only [setRankOne]
    exact filter_sortDesc clipKey q _

/-- C9 (counterexample): on a CPU device with a known replica count and
per-replica threads below 2, the tuner does nothing when OMP_NUM_THREADS is
present — contradicting the claim, which does not except that case. -/
theorem claim9_counterexample :
    tunerOmp.device = "cpu" ∧ tunerOmp.replicas?.isSome ∧
    perReplicaThreads tunerOmp < 2 ∧
    tuneThreads tunerOmp = ⟨false, none, none⟩ := by
  refine ⟨rfl, by decide, by decide, by decide⟩

/-- C9 (amended): provided OMP_NUM_THREADS is absent, on a CPU device with
a known replica count the tuner warns and configures
`per_replica_threads` intra-op threads and 1 inter-op thread exactly when
`per_replica_threads = max 1 (total_threads / replicas) < 2`, and touches
nothing otherwise; on cuda devices or with unknown replica count it never
warns or configures. -/
theorem claim9_tuner_behaviour (inp : TunerInput) :
    (inp.device = "cpu" → inp.ompPresent = false → inp.replicas?.isSome →
      (((tuneThreads inp).warned = true ↔ perReplicaThreads inp < 2) ∧
      (perReplicaThreads inp < 2 →
        tuneThreads inp = ⟨true, some (perReplicaThreads inp), some 1⟩) ∧
      (2 ≤ perReplicaThreads inp →
        tuneThreads inp = ⟨false, none, none⟩))) ∧
    (inp.device.startsWith "cuda" →
      tuneThreads inp = ⟨false, none, none⟩) ∧
    (inp.replicas? = none →
      tuneThreads inp = ⟨false, none, none⟩) := by
  refine ⟨?_, ?_, ?_⟩
  · intro hcpu homp hkn
    have hnc : ¬ inp.device.startsWith "cuda" = true := by rw [hcpu]; decide
    have hno : ¬ inp.ompPresent = true := by simp [homp]
    simp only [tuneThreads]
    rw [if_pos ⟨hnc, hno, hkn⟩]
    by_cases h2 : max 1 (inp.totalThreads / inp.replicas?.getD 1) < 2
    · rw [if_pos h2]
      have hmx : max (max 1 (inp.totalThreads / inp.replicas?.getD 1)) 1 =
          max 1 (inp.totalThreads / inp.replicas?.getD 1) := by omega
      refine ⟨?_, fun _ => ?_, fun hge => ?_⟩
      · simpa [perReplicaThreads] using h2
      · simp [perReplicaThreads, hmx]
      · exfalso
        simp only [perReplicaThreads] at hge
        omega
    · rw [if_neg h2]
      refine ⟨?_, fun hlt => ?_, fun _ => rfl⟩
      · simpa [perReplicaThreads] using h2
      · exfalso
        simp only [perReplicaThreads] at hlt
        omega
  · intro hgpu
    simp [tuneThreads, hgpu]
  · intro hrep
    simp [tuneThreads, hrep]

/-- C9 witness: the warn-and-configure branch at a concrete CPU input with
4 replicas over 4 threads and no OMP_NUM_THREADS. -/
theorem claim9_tuner_behaviour_witness :
    tuneThreads tunerCpu = ⟨true, some (perReplicaThreads tunerCpu), some 1⟩ :=
  ((claim9_tuner_behaviour tunerCpu).1 rfl rfl (by decide)).2.1 (by decide)

/-- C10: whenever OMP_NUM_THREADS is present in the environment, the tuning
step is skipped entirely — no warning, no thread configuration — whatever
the device, replica count and thread budget. -/
theorem claim10_omp_skips_tuning (inp : TunerInput)
    (h : inp.ompPresent = true) :
    tuneThreads inp = ⟨false, none, none⟩ := by
  simp [tuneThreads, h]

/-- C10 witness: the skip theorem at a concrete CPU input with
OMP_NUM_THREADS present and per-replica threads below 2. -/
theorem claim10_omp_skips_tuning_witness :
    tuneThreads tunerOmp = ⟨false, none, none⟩ :=
  claim10_omp_skips_tuning tunerOmp rfl

end ClipHG
